import Mathlib

/-!
Verification of the simplified Bitcoin-mining environment (`ai_miner`).

The Python sources are shallowly embedded: bytes become `List Nat` (each
entry a value below 256 wherever the Python value is a byte), hex strings
become `List Char`, Python exceptions become `Option`, and the SHA-256
primitive from `hashlib` is an abstract parameter `sha : Bytes → Bytes`
(every use in the sources is through this single primitive, including the
Base58Check checksum inside the `base58` library).  Arbitrary-precision
Python integers are `Nat`/`Int`.  Unbounded `while` loops are embedded with
an explicit fuel argument that provably dominates the iteration count, so
that every definition stays kernel-computable.
-/

namespace AiMiner

abbrev Bytes := List Nat

/-- Lowercase hex digit for a nibble, as produced by Python's `bytes.hex`:
codepoints 48-57 for 0-9 and 97-102 for a-f. -/
def hexDigitChar (n : Nat) : Char :=
  if n % 16 < 10 then Char.ofNat (48 + n % 16) else Char.ofNat (87 + n % 16)

/-- Two lowercase hex characters of one byte (`format(b, "02x")`). -/
def byteToHexChars (b : Nat) : List Char :=
  [hexDigitChar (b / 16 % 16), hexDigitChar (b % 16)]

/-- Embeds Python's `bytes.hex()`: lowercase hex rendering of a byte string. -/
def bytesToHex (bs : Bytes) : List Char :=
  (bs.map byteToHexChars).flatten

/-- Value of one hex character, upper or lower case, as accepted by
`bytes.fromhex` and `int(s, 16)`; `none` on a non-hex character. -/
def hexDigitVal (c : Char) : Option Nat :=
  if c = '0' then some 0 else if c = '1' then some 1
  else if c = '2' then some 2 else if c = '3' then some 3
  else if c = '4' then some 4 else if c = '5' then some 5
  else if c = '6' then some 6 else if c = '7' then some 7
  else if c = '8' then some 8 else if c = '9' then some 9
  else if c = 'a' then some 10 else if c = 'b' then some 11
  else if c = 'c' then some 12 else if c = 'd' then some 13
  else if c = 'e' then some 14 else if c = 'f' then some 15
  else if c = 'A' then some 10 else if c = 'B' then some 11
  else if c = 'C' then some 12 else if c = 'D' then some 13
  else if c = 'E' then some 14 else if c = 'F' then some 15
  else none

/-- Embeds Python's `bytes.fromhex` on whitespace-free input: pairs of hex
characters become bytes; an odd length or a non-hex character raises
(`none`). -/
def bytesFromHex : List Char → Option Bytes
  | [] => some []
  | [_] => none
  | c1 :: c2 :: rest =>
    match hexDigitVal c1, hexDigitVal c2, bytesFromHex rest with
    | some hi, some lo, some bs => some ((hi * 16 + lo) :: bs)
    | _, _, _ => none

/-- Embeds Python's `int(s, 16)` on whitespace-free sign-free input:
`none` on the empty string or a non-hex character. -/
def hexCharsToNat (s : List Char) : Option Nat :=
  match s with
  | [] => none
  | _ =>
    s.foldlM (fun acc c => (hexDigitVal c).map (fun v => acc * 16 + v)) 0

/-- The `w` little-endian base-256 digits of `n` (the body of
`int.to_bytes(w, "little")` and of `struct.pack` for unsigned fields). -/
def leBytes (w n : Nat) : Bytes :=
  (List.range w).map (fun k => n / 256 ^ k % 256)

/-- Embeds `struct.pack` for an unsigned little-endian field of width `w`
(`<I`, `<L`, `<Q`): raises (`none`) when the value does not fit. -/
def packLE (w n : Nat) : Option Bytes :=
  if n < 256 ^ w then some (leBytes w n) else none

/-- Little-endian base-256 digits of `n` with no trailing zero, computed
with fuel (`fuel ≥ n` suffices); embeds the `while acc: append(acc & 0xff)`
loops of the sources. -/
def natToBytesLEAux : Nat → Nat → Bytes
  | 0, _ => []
  | fuel + 1, n =>
    if n = 0 then [] else n % 256 :: natToBytesLEAux fuel (n / 256)

def natToBytesLE (n : Nat) : Bytes := natToBytesLEAux n n

/-- Minimal big-endian byte rendering of `n` (empty for zero), as used by
the `base58` library to materialize the decoded integer. -/
def natToBytesBE (n : Nat) : Bytes := (natToBytesLE n).reverse

/-- Embeds `encode_varint` from `src/utils/block.py`: Bitcoin-style
variable-length integer; `none` when the value exceeds 64 bits (where
`int.to_bytes(8, "little")` raises). -/
def encode_varint (i : Nat) : Option Bytes :=
  if i < 0xfd then some [i]
  else if i ≤ 0xffff then some (0xfd :: leBytes 2 i)
  else if i ≤ 0xffffffff then some (0xfe :: leBytes 4 i)
  else if i < 2 ^ 64 then some (0xff :: leBytes 8 i)
  else none

/-- Embeds `encode_script_num` from `src/utils/block.py` (Bitcoin script
number / BIP34 height encoding): little-endian magnitude with the sign bit
in the high bit of the last byte; zero encodes to the empty sequence. -/
def encode_script_num (num : Int) : Bytes :=
  if num = 0 then []
  else
    let result := natToBytesLE num.natAbs
    if 128 ≤ result.getLast! then
      result ++ [if num < 0 then 0x80 else 0]
    else if num < 0 then
      result.dropLast ++ [result.getLast! + 0x80]
    else
      result

/-- The Bitcoin Base58 alphabet used by the `base58` library. -/
def b58Alphabet : List Char :=
  ['1', '2', '3', '4', '5', '6', '7', '8', '9',
   'A', 'B', 'C', 'D', 'E', 'F', 'G', 'H', 'J', 'K', 'L', 'M', 'N',
   'P', 'Q', 'R', 'S', 'T', 'U', 'V', 'W', 'X', 'Y', 'Z',
   'a', 'b', 'c', 'd', 'e', 'f', 'g', 'h', 'i', 'j', 'k', 'm', 'n',
   'o', 'p', 'q', 'r', 's', 't', 'u', 'v', 'w', 'x', 'y', 'z']

/-- Position of a character in a character list (`str.index`); `none` when
absent. -/
def charIndex : List Char → Char → Option Nat
  | [], _ => none
  | x :: xs, c => if x = c then some 0 else (charIndex xs c).map (· + 1)

/-- Embeds `base58.b58decode` on whitespace-free input: leading `1`
characters become leading zero bytes, the rest is read as a base-58
integer and rendered as minimal big-endian bytes; `none` on a character
outside the alphabet. -/
def b58decode (v : List Char) : Option Bytes :=
  let stripped := v.dropWhile (fun c => c = '1')
  let nzeros := v.length - stripped.length
  match stripped.foldlM
      (fun acc c => (charIndex b58Alphabet c).map (fun d => acc * 58 + d)) 0 with
  | none => none
  | some acc => some (List.replicate nzeros 0 ++ natToBytesBE acc)

/-- Embeds `base58.b58decode_check`: decode, split off the 4-byte
checksum, and verify it against the first 4 bytes of the double SHA-256 of
the payload; a mismatch raises (`none`). -/
def b58decode_check (sha : Bytes → Bytes) (v : List Char) : Option Bytes :=
  match b58decode v with
  | none => none
  | some d =>
    let payload := d.take (d.length - 4)
    let check := d.drop (d.length - 4)
    if (sha (sha payload)).take 4 = check then some payload else none

/-- Embeds `address_to_script_pubkey` from `src/utils/block.py`:
Base58Check-decode the address, strip the version byte, require a 20-byte
public-key hash, and build the P2PKH script. -/
def address_to_script_pubkey (sha : Bytes → Bytes) (address : List Char) :
    Option Bytes :=
  match b58decode_check sha address with
  | none => none
  | some decoded =>
    let pubkey_hash := decoded.drop 1
    if pubkey_hash.length = 20 then
      some ([0x76, 0xa9, 0x14] ++ pubkey_hash ++ [0x88, 0xac])
    else none

/-- Embeds `create_coinbase_tx` from `src/utils/block.py`: the raw
serialized coinbase transaction for a given height and extra-nonce.
`bytes([len])` on an over-long height push and `struct.pack` on an
oversized extra-nonce raise (`none`). -/
def create_coinbase_tx (sha : Bytes → Bytes) (block_height : Int)
    (extra_nonce : Nat) (miner_msg : Bytes) (address : List Char) :
    Option Bytes :=
  let version := leBytes 4 1
  let tx_in_count : Bytes := [1]
  let prev_out_hash : Bytes := List.replicate 32 0
  let prev_out_index : Bytes := [0xff, 0xff, 0xff, 0xff]
  let height_bytes := encode_script_num block_height
  if height_bytes.length ≤ 255 then
    let height_push := height_bytes.length :: height_bytes
    match packLE 4 extra_nonce with
    | none => none
    | some en =>
      let extra_data := en ++ miner_msg
      let script_sig := height_push ++ extra_data
      match encode_varint script_sig.length with
      | none => none
      | some script_sig_len =>
        let sequence : Bytes := [0xff, 0xff, 0xff, 0xff]
        let tx_in := prev_out_hash ++ prev_out_index ++ script_sig_len ++
          script_sig ++ sequence
        let tx_out_count : Bytes := [1]
        let value := leBytes 8 (50 * 100000000)
        match address_to_script_pubkey sha address with
        | none => none
        | some script_pubkey =>
          match encode_varint script_pubkey.length with
          | none => none
          | some script_pubkey_len =>
            let tx_out := value ++ script_pubkey_len ++ script_pubkey
            let lock_time : Bytes := [0, 0, 0, 0]
            some (version ++ tx_in_count ++ tx_in ++ tx_out_count ++
              tx_out ++ lock_time)
  else none

/-- Embeds `double_sha256` (identical in `src/utils/block.py` and
`src/utils/merkle.py`): the abstract SHA-256 primitive applied twice. -/
def double_sha256 (sha : Bytes → Bytes) (data : Bytes) : Bytes :=
  sha (sha data)

/-- Embeds `txid` from `src/utils/block.py`: double SHA-256 of the raw
transaction, byte-reversed, hex-encoded. -/
def txid (sha : Bytes → Bytes) (tx_bytes : Bytes) : List Char :=
  bytesToHex (double_sha256 sha tx_bytes).reverse

/-- Embeds `bits_to_target` from `src/utils/block.py`: exponent is the top
byte, mantissa the low 24 bits, and the target is
`mantissa * 2 ^ (8 * (exponent - 3))`.  When the exponent is below 3 the
Python shift amount is negative and `1 << (8 * (exponent - 3))` raises
`ValueError`, embedded as `none`. -/
def bits_to_target (bits : Nat) : Option Nat :=
  let exponent := bits >>> 24
  let mantissa := bits &&& 0xffffff
  if 3 ≤ exponent then some (mantissa * 2 ^ (8 * (exponent - 3))) else none

/-- Embeds `serialize_block_header` from `src/utils/block.py`: the 80-byte
proof-of-work input.  `struct.pack` on an oversized field and
`bytes.fromhex` on a malformed hash string raise (`none`). -/
def serialize_block_header (version : Nat) (prev_hash merkle_root_hex : List Char)
    (timestamp bits nonce : Nat) : Option Bytes :=
  match packLE 4 version, bytesFromHex prev_hash, bytesFromHex merkle_root_hex,
      packLE 4 timestamp, packLE 4 bits, packLE 4 nonce with
  | some v, some p, some m, some t, some b, some n =>
    some (v ++ p.reverse ++ m.reverse ++ t ++ b ++ n)
  | _, _, _, _, _, _ => none

/-- The block-header fields dictionary assembled by
`SimpleBitcoinEnv.step`. -/
structure HeaderFields where
  version : Nat
  previousblockhash : List Char
  merkleroot : List Char
  timestamp : Nat
  bits : Nat
  nonce : Nat
  deriving Repr, DecidableEq

/-- Embeds `compute_hash` from `src/utils/block.py`: double SHA-256 of the
serialized header, byte-reversed, hex-encoded. -/
def compute_hash (sha : Bytes → Bytes) (h : HeaderFields) : Option (List Char) :=
  match serialize_block_header h.version h.previousblockhash h.merkleroot
      h.timestamp h.bits h.nonce with
  | none => none
  | some serialized => some (bytesToHex (double_sha256 sha serialized).reverse)

/-- One pass of the inner pairing loop of `merkle_root` in
`src/utils/merkle.py`: each adjacent pair `(left, right)` becomes
`double_sha256(left ++ right)`.  The input always has even length at the
call site, so the one-element fallback is never exercised there. -/
def pairCombine (d : Bytes → Bytes) : List Bytes → List Bytes
  | a :: b :: rest => d (a ++ b) :: pairCombine d rest
  | l => l

/-- One iteration of the `while len(hashes) > 1` body of `merkle_root`:
duplicate the last element when the level has odd count, then pair up. -/
def merkleLevel (d : Bytes → Bytes) (hs : List Bytes) : List Bytes :=
  let hs2 := if hs.length % 2 ≠ 0 then hs ++ [hs.getLast!] else hs
  pairCombine d hs2

/-- The `while len(hashes) > 1` loop of `merkle_root`, with explicit fuel.
Each iteration strictly shrinks a level of length at least 2, so fuel equal
to the initial length dominates the iteration count
(`merkleLoopAux_length_le` below). -/
def merkleLoopAux (d : Bytes → Bytes) : Nat → List Bytes → List Bytes
  | 0, hs => hs
  | fuel + 1, hs =>
    if 1 < hs.length then merkleLoopAux d fuel (merkleLevel d hs) else hs

/-- Embeds `merkle_root` from `src/utils/merkle.py`: all-zero root for the
empty list, otherwise hex-decode every hash, fold the levels down to one
element, and return it byte-reversed and hex-encoded.  A malformed hex
hash raises (`none`). -/
def merkle_root (sha : Bytes → Bytes) (tx_hashes : List (List Char)) :
    Option (List Char) :=
  if tx_hashes.length = 0 then some (List.replicate 64 '0')
  else
    match tx_hashes.mapM bytesFromHex with
    | none => none
    | some hashes =>
      some (bytesToHex
        ((merkleLoopAux (double_sha256 sha) hashes.length hashes).headI).reverse)

/-- The persistent fields of `SimpleBitcoinEnv`. -/
structure EnvState where
  version : Nat
  previousblockhash : List Char
  bits : Nat
  base_timestamp : Nat
  transactions : List (List Char)
  num_txs : Nat
  target : Nat
  current_nonce : Nat
  current_timestamp : Nat
  current_tx_order : List Int
  block_height : Nat
  deriving Repr, DecidableEq

/-- An action passed to `SimpleBitcoinEnv.step`.  The transaction order is
an arbitrary integer list, matching the leniency of the Python code. -/
structure Action where
  nonce : Nat
  extra_nonce : Nat
  tx_order : List Int
  deriving Repr, DecidableEq

/-- The observation dictionary built by `SimpleBitcoinEnv._get_obs`. -/
structure Obs where
  version : Nat
  previousblockhash : Bytes
  bits : Nat
  timestamp : Nat
  nonce : Nat
  tx_order : List Int
  deriving Repr, DecidableEq

/-- The info dictionary returned by `SimpleBitcoinEnv.step`. -/
structure StepInfo where
  block_hash : List Char
  hash_int : Nat
  target : Nat
  header_fields : HeaderFields
  coinbase_tx : List Char
  full_tx_list : List (List Char)
  deriving Repr, DecidableEq

/-- Everything `SimpleBitcoinEnv.step` produces: the returned 4-tuple
(observation, reward, done, info) together with the mutated environment
state.  The Python reward is a float; it is embedded as the exact rational
value of the same expression. -/
structure StepResult where
  obs : Obs
  reward : Rat
  done : Bool
  state : EnvState
  info : StepInfo
  deriving Repr, DecidableEq

/-- The first loop of `SimpleBitcoinEnv.fix_permutation`: keep each entry
that is in range and not yet kept (the Python `seen` set always holds
exactly the values of the result list being built). -/
def fixKeep (n : Nat) : List Int → List Int → List Int
  | [], res => res
  | x :: xs, res =>
    if x ∉ res ∧ 0 ≤ x ∧ x < (n : Int) then fixKeep n xs (res ++ [x])
    else fixKeep n xs res

/-- Embeds `SimpleBitcoinEnv.fix_permutation`: keep valid first
occurrences, append the missing indices of `range n` in ascending order,
and truncate to `n` entries. -/
def fix_permutation (arr : List Int) (n : Nat) : List Int :=
  let kept := fixKeep n arr []
  let res := kept ++
    ((List.range n).filter (fun k : Nat => decide ((k : Int) ∉ kept))).map
      (fun k : Nat => (k : Int))
  res.take n

/-- The per-entry clamp `min(max(0, i), num_txs - 1)` applied by
`SimpleBitcoinEnv.step` before the permutation repair. -/
def clampIdx (n : Nat) (i : Int) : Int := min (max 0 i) ((n : Int) - 1)

/-- Embeds `SimpleBitcoinEnv._get_obs`: `bytes.fromhex` on the previous
block hash raises (`none`) when it is malformed. -/
def get_obs (s : EnvState) : Option Obs :=
  match bytesFromHex s.previousblockhash with
  | none => none
  | some prev_hash_bytes =>
    some { version := s.version, previousblockhash := prev_hash_bytes,
           bits := s.bits, timestamp := s.current_timestamp,
           nonce := s.current_nonce, tx_order := s.current_tx_order }

/-- UTF-8 bytes of the fixed miner message string. -/
def minerMsg : Bytes := [77, 105, 110, 105, 110, 103, 32, 119, 105, 116, 104, 32, 82, 76]

/-- The fixed miner address constant of `create_coinbase_tx`. -/
def minerAddress : List Char :=
  ['1', 'A', '1', 'z', 'P', '1', 'e', 'P', '5', 'Q', 'G', 'e', 'f', 'i',
   '2', 'D', 'M', 'P', 'T', 'f', 'T', 'L', '5', 'S', 'L', 'm', 'v', '7',
   'D', 'i', 'v', 'f', 'N', 'a']

/-- Embeds `SimpleBitcoinEnv.step`.  The SHA-256 primitive is abstract
(`sha`), and the random transaction pool generated on success
(`generate_transactions`, drawing on `os.urandom`) is abstracted as the
parameter `newTxs`.  Any Python exception along the way is `none`. -/
def step (sha : Bytes → Bytes) (newTxs : List (List Char)) (s : EnvState)
    (a : Action) : Option StepResult :=
  let tx_order := fix_permutation (a.tx_order.map (clampIdx s.num_txs)) s.num_txs
  let nt0 := s.base_timestamp
  let new_timestamp := if nt0 < s.base_timestamp then s.base_timestamp else nt0
  match create_coinbase_tx sha (s.block_height : Int) a.extra_nonce minerMsg
      minerAddress with
  | none => none
  | some raw_coinbase_tx =>
    let coinbase_tx := txid sha raw_coinbase_tx
    match tx_order.mapM (fun i => s.transactions.get? i.toNat) with
    | none => none
    | some reordered_txs =>
      let full_tx_list := coinbase_tx :: reordered_txs
      match merkle_root sha full_tx_list with
      | none => none
      | some new_merkle_root =>
        let header_fields : HeaderFields :=
          { version := s.version, previousblockhash := s.previousblockhash,
            merkleroot := new_merkle_root, timestamp := new_timestamp,
            bits := s.bits, nonce := a.nonce }
        match compute_hash sha header_fields with
        | none => none
        | some block_hash =>
          match hexCharsToNat block_hash with
          | none => none
          | some hash_int =>
            let upd : Rat × EnvState :=
              if hash_int < s.target then
                (100,
                 { s with previousblockhash := block_hash,
                          block_height := s.block_height + 1,
                          transactions := newTxs,
                          num_txs := newTxs.length })
              else
                (-((hash_int : Rat) / 2 ^ 256), s)
            let s2 : EnvState :=
              { upd.2 with current_nonce := a.nonce,
                           current_timestamp := new_timestamp,
                           current_tx_order := tx_order }
            match get_obs s2 with
            | none => none
            | some obs =>
              some { obs := obs, reward := upd.1, done := false, state := s2,
                     info := { block_hash := block_hash, hash_int := hash_int,
                               target := s.target,
                               header_fields := header_fields,
                               coinbase_tx := coinbase_tx,
                               full_tx_list := full_tx_list } }

/-- Spec-side first pass of the ordering normalization, following the
spec's words: drop out-of-range entries and duplicate entries, keeping the
first occurrence of each valid index. -/
def specKeep (n : Nat) : List Int → List Int → List Int
  | [], acc => acc
  | x :: xs, acc =>
    if x ∉ acc ∧ 0 ≤ x ∧ x < (n : Int) then specKeep n xs (acc ++ [x])
    else specKeep n xs acc

/-- Spec-side normalization of a transaction ordering, following the
spec's words: drop out-of-range and duplicate entries (keeping first
occurrences), then append the missing indices in ascending order. -/
def dropAppendNorm (arr : List Int) (n : Nat) : List Int :=
  let kept := specKeep n arr []
  kept ++
    ((List.range n).filter (fun k : Nat => decide ((k : Int) ∉ kept))).map
      (fun k : Nat => (k : Int))

/-- Spec-side duplication of the last element of an odd-count level,
following the spec's words for the Merkle reduction. -/
def specEvenize (hs : List Bytes) : List Bytes :=
  if hs.length % 2 = 1 then hs ++ [hs.getLast!] else hs

/-- Spec-side pairing pass: each adjacent pair `(left, right)` is replaced
by `d (left ++ right)`. -/
def specPairStep (d : Bytes → Bytes) : List Bytes → List Bytes
  | a :: b :: rest => d (a ++ b) :: specPairStep d rest
  | l => l

/-- Spec-side Merkle reduction with fuel: repeat evenize-then-pair until
one element remains, and return it. -/
def specReduceAux (d : Bytes → Bytes) : Nat → List Bytes → Bytes
  | 0, hs => hs.headI
  | fuel + 1, hs =>
    if 1 < hs.length then specReduceAux d fuel (specPairStep d (specEvenize hs))
    else hs.headI

/-- Spec-side Merkle reduction of a non-empty list of raw hashes to the
single remaining element, following the spec's words. -/
def merkleReduceSpec (d : Bytes → Bytes) (hs : List Bytes) : Bytes :=
  specReduceAux d hs.length hs

/-- Block version constant from `src/config/constants.py`. -/
def VERSION : Nat := 0x20000000

/-- Difficulty bits constant from `src/config/constants.py`. -/
def BITS : Nat := 0x1f7fffff

/-- All-zero previous block hash from `src/config/constants.py`. -/
def PREVIOUS_BLOCK_HASH : List Char := List.replicate 64 '0'

/-- A concrete stand-in for the abstract SHA-256 primitive, used only to
evaluate `step` on closed inputs.  It maps the 21-byte Base58Check payload
through to its recorded checksum so that address decoding succeeds, and
collapses every other digest to the all-zero block, which makes the block
hash parse to 0 (a passing attempt). -/
def shaPass (l : Bytes) : Bytes :=
  if l.length = 21 then List.replicate 32 1
  else if l = List.replicate 32 1 then
    [194, 155, 125, 147] ++ List.replicate 28 0
  else List.replicate 32 0

/-- A second concrete SHA-256 stand-in whose block hash evaluates to
`2 ^ 256 - 1` (a failing attempt), while address decoding still
succeeds. -/
def shaFail (l : Bytes) : Bytes :=
  if l.length = 21 then List.replicate 32 1
  else if l = List.replicate 32 1 then
    [194, 155, 125, 147] ++ List.replicate 28 0
  else List.replicate 32 255

/-- A closed environment state with an empty transaction pool, used to
evaluate `step` on closed inputs. -/
def s0 : EnvState :=
  { version := VERSION, previousblockhash := PREVIOUS_BLOCK_HASH,
    bits := BITS, base_timestamp := 1700000000, transactions := [],
    num_txs := 0, target := 0x7fffff * 2 ^ 224, current_nonce := 0,
    current_timestamp := 1700000000, current_tx_order := [],
    block_height := 1 }

/-- A closed environment state with three pooled transactions. -/
def s3 : EnvState :=
  { s0 with
    transactions :=
      [List.replicate 64 '0', List.replicate 64 '0', List.replicate 64 '0'],
    num_txs := 3 }

/-- A closed action with empty transaction ordering. -/
def a0 : Action := { nonce := 0, extra_nonce := 0, tx_order := [] }

/-- A closed action whose ordering holds the single out-of-range index 5. -/
def a5 : Action := { nonce := 0, extra_nonce := 0, tx_order := [5] }

/-- The concrete result of a passing `step` on the closed inputs. -/
def R0 : StepResult := (step shaPass [] s0 a0).get (by decide)

/-- The concrete result of a failing `step` on the closed inputs. -/
def RF : StepResult := (step shaFail [] s0 a0).get (by decide)

/-- The concrete result of `step` on the three-transaction state with the
out-of-range ordering `[5]`. -/
def R3 : StepResult := (step shaPass [] s3 a5).get (by decide)

/-- A character is a hex digit (accepted by `bytes.fromhex`). -/
abbrev IsHexChar (c : Char) : Prop := (hexDigitVal c).isSome = true

/-- A 64-character string of hex digits (a well-formed displayed hash). -/
abbrev IsHex64 (s : List Char) : Prop := s.length = 64 ∧ ∀ c ∈ s, IsHexChar c

/-- Hex decoding succeeds on every even-length all-hex string and yields
half as many bytes. -/
theorem bytesFromHex_ok (s : List Char) (heven : s.length % 2 = 0)
    (hhex : ∀ c ∈ s, IsHexChar c) :
    ∃ bs, bytesFromHex s = some bs ∧ bs.length = s.length / 2 := by
  match s with
  | [] => exact ⟨[], rfl, rfl⟩
  | [c] => simp at heven
  | c1 :: c2 :: rest =>
    obtain ⟨bs, hbs, hlen⟩ := bytesFromHex_ok rest
      (by simp only [List.length_cons] at heven; omega)
      (fun c hc => hhex c (by simp [hc]))
    obtain ⟨v1, hv1⟩ := Option.isSome_iff_exists.mp (hhex c1 (by simp))
    obtain ⟨v2, hv2⟩ := Option.isSome_iff_exists.mp (hhex c2 (by simp))
    refine ⟨(v1 * 16 + v2) :: bs, ?_, ?_⟩
    · simp [bytesFromHex, hv1, hv2, hbs]
    · simp [hlen]
      omega

/-- Each packed little-endian field has exactly its nominal width. -/
theorem leBytes_length (w n : Nat) : (leBytes w n).length = w := by
  simp [leBytes]

/-- Master elimination lemma for a non-raising `step` call: characterizes
the returned flag, header timestamp, repaired ordering, and the two
reward/state branches. -/
theorem step_some_spec (sha : Bytes → Bytes) (newTxs : List (List Char))
    (s : EnvState) (a : Action) (r : StepResult)
    (h : step sha newTxs s a = some r) :
    r.done = false ∧
    r.info.target = s.target ∧
    r.info.header_fields.timestamp = s.base_timestamp ∧
    r.state.current_timestamp = s.base_timestamp ∧
    r.state.base_timestamp = s.base_timestamp ∧
    r.state.current_tx_order =
      fix_permutation (a.tx_order.map (clampIdx s.num_txs)) s.num_txs ∧
    (r.info.hash_int < s.target →
      r.reward = 100 ∧
      r.state.previousblockhash = r.info.block_hash ∧
      r.state.block_height = s.block_height + 1 ∧
      r.state.transactions = newTxs ∧
      r.state.num_txs = newTxs.length) ∧
    (s.target ≤ r.info.hash_int →
      r.reward = -((r.info.hash_int : Rat) / 2 ^ 256) ∧
      r.state.previousblockhash = s.previousblockhash ∧
      r.state.block_height = s.block_height ∧
      r.state.transactions = s.transactions ∧
      r.state.num_txs = s.num_txs) := by
  simp only [step, ite_self] at h
  repeat' split at h
  all_goals cases h
  · refine ⟨rfl, rfl, rfl, rfl, rfl, rfl, fun _ => ⟨rfl, rfl, rfl, rfl, rfl⟩,
      fun hge => absurd hge ?_⟩
    dsimp only
    omega
  · refine ⟨rfl, rfl, rfl, rfl, rfl, rfl, fun hlt => absurd hlt ?_,
      fun _ => ⟨rfl, rfl, rfl, rfl, rfl⟩⟩
    dsimp only
    omega

/-- The passing closed-step fixture evaluates to `R0`. -/
theorem step_s0_pass : step shaPass [] s0 a0 = some R0 :=
  (Option.some_get _).symm

/-- The failing closed-step fixture evaluates to `RF`. -/
theorem step_s0_fail : step shaFail [] s0 a0 = some RF :=
  (Option.some_get _).symm

/-- The three-transaction closed-step fixture evaluates to `R3`. -/
theorem step_s3_pass : step shaPass [] s3 a5 = some R3 :=
  (Option.some_get _).symm

/-- C1: in every non-raising call to `step`, the reward equals the fixed
positive constant 100 if and only if the block hash parsed as a big-endian
integer (`hash_int`) is strictly below the target derived from `bits`;
otherwise the reward is exactly `-(hash_int / 2 ^ 256)` (the Python float
division embedded as the exact rational), so equality of hash and target
counts as failure. -/
theorem step_reward_characterization (sha : Bytes → Bytes)
    (newTxs : List (List Char)) (s : EnvState) (a : Action) (r : StepResult)
    (_htgt : bits_to_target s.bits = some s.target)
    (h : step sha newTxs s a = some r) :
    (r.reward = 100 ↔ r.info.hash_int < s.target) ∧
    (s.target ≤ r.info.hash_int →
      r.reward = -((r.info.hash_int : Rat) / 2 ^ 256)) := by
  obtain ⟨-, -, -, -, -, -, hsucc, hfail⟩ := step_some_spec sha newTxs s a r h
  refine ⟨⟨fun hr => ?_, fun hlt => (hsucc hlt).1⟩, fun hge => (hfail hge).1⟩
  by_contra hnot
  have hneg := (hfail (le_of_not_lt hnot)).1
  rw [hr] at hneg
  have h0 : (0 : Rat) ≤ (r.info.hash_int : Rat) / 2 ^ 256 := by positivity
  rw [eq_comm, neg_eq_iff_eq_neg] at hneg
  linarith [hneg ▸ h0]

/-- Witness for C1 at the closed passing fixture. -/
theorem step_reward_characterization_witness :
    (R0.reward = 100 ↔ R0.info.hash_int < s0.target) ∧
    (s0.target ≤ R0.info.hash_int →
      R0.reward = -((R0.info.hash_int : Rat) / 2 ^ 256)) :=
  step_reward_characterization shaPass [] s0 a0 R0 (by decide) step_s0_pass

/-- C7: a failed attempt (hash at or above target) leaves the previous
block hash, the block height and the transaction pool unchanged, while a
successful attempt advances the previous hash to the new block hash,
increments the height by exactly 1 and replaces the pool with the freshly
generated transactions. -/
theorem step_frame_effects (sha : Bytes → Bytes) (newTxs : List (List Char))
    (s : EnvState) (a : Action) (r : StepResult)
    (h : step sha newTxs s a = some r) :
    (s.target ≤ r.info.hash_int →
      r.state.previousblockhash = s.previousblockhash ∧
      r.state.block_height = s.block_height ∧
      r.state.transactions = s.transactions) ∧
    (r.info.hash_int < s.target →
      r.state.previousblockhash = r.info.block_hash ∧
      r.state.block_height = s.block_height + 1 ∧
      r.state.transactions = newTxs) := by
  obtain ⟨-, -, -, -, -, -, hsucc, hfail⟩ := step_some_spec sha newTxs s a r h
  exact ⟨fun hge => ⟨(hfail hge).2.1, (hfail hge).2.2.1, (hfail hge).2.2.2.1⟩,
    fun hlt => ⟨(hsucc hlt).2.1, (hsucc hlt).2.2.1, (hsucc hlt).2.2.2.1⟩⟩

/-- Witness for C7 at the closed failing fixture. -/
theorem step_frame_effects_witness :
    (s0.target ≤ RF.info.hash_int →
      RF.state.previousblockhash = s0.previousblockhash ∧
      RF.state.block_height = s0.block_height ∧
      RF.state.transactions = s0.transactions) ∧
    (RF.info.hash_int < s0.target →
      RF.state.previousblockhash = RF.info.block_hash ∧
      RF.state.block_height = s0.block_height + 1 ∧
      RF.state.transactions = []) :=
  step_frame_effects shaFail [] s0 a0 RF step_s0_fail

/-- C8: in every non-raising call to `step`, the timestamp placed in the
assembled block header equals the episode's base timestamp (so it is never
below it and no action can change it), and `current_timestamp` still
equals the base timestamp after the step. -/
theorem step_timestamp_pinned (sha : Bytes → Bytes) (newTxs : List (List Char))
    (s : EnvState) (a : Action) (r : StepResult)
    (h : step sha newTxs s a = some r) :
    r.info.header_fields.timestamp = s.base_timestamp ∧
    s.base_timestamp ≤ r.info.header_fields.timestamp ∧
    r.state.current_timestamp = s.base_timestamp ∧
    r.state.base_timestamp = s.base_timestamp := by
  obtain ⟨-, -, hts, hcur, hbase, -, -, -⟩ := step_some_spec sha newTxs s a r h
  exact ⟨hts, le_of_eq hts.symm, hcur, hbase⟩

/-- Witness for C8 at the closed passing fixture. -/
theorem step_timestamp_pinned_witness :
    R0.info.header_fields.timestamp = s0.base_timestamp ∧
    s0.base_timestamp ≤ R0.info.header_fields.timestamp ∧
    R0.state.current_timestamp = s0.base_timestamp ∧
    R0.state.base_timestamp = s0.base_timestamp :=
  step_timestamp_pinned shaPass [] s0 a0 R0 step_s0_pass

/-- C9: `step` never signals episode termination: the done flag in every
non-raising call is `false`, for every action and every state, including
when a valid block is found. -/
theorem step_never_done (sha : Bytes → Bytes) (newTxs : List (List Char))
    (s : EnvState) (a : Action) (r : StepResult)
    (h : step sha newTxs s a = some r) : r.done = false :=
  (step_some_spec sha newTxs s a r h).1

/-- Witness for C9 at the closed passing fixture. -/
theorem step_never_done_witness : R0.done = false :=
  step_never_done shaPass [] s0 a0 R0 step_s0_pass

/-- C5: repairing the specific input ordering `[5, 5, -1, 2]` over 3
non-coinbase transactions yields exactly the ordering `[2, 0, 1]`. -/
theorem fix_permutation_example : fix_permutation [5, 5, -1, 2] 3 = [2, 0, 1] := by
  decide

/-- C6 counterexample: at the 32-bit value `0x01000000` (top byte 1, hence
below 3) `bits_to_target` raises instead of returning any integer, so the
claimed formula does not hold for every 32-bit value. -/
theorem bits_to_target_low_exponent_cex :
    16777216 < 2 ^ 32 ∧ (16777216 : Nat) >>> 24 = 1 ∧
    bits_to_target 16777216 = none :=
  ⟨by decide, by decide, by decide⟩

/-- C6 amended: for every 32-bit value whose top byte (the exponent) is at
least 3, `bits_to_target` returns the exact arbitrary-precision integer
`mantissa * 2 ^ (8 * (exponent - 3))`, and the result can exceed 256 bits
of magnitude without truncation. -/
theorem bits_to_target_formula :
    (∀ bits : Nat, bits < 2 ^ 32 → 3 ≤ bits >>> 24 →
      bits_to_target bits =
        some ((bits &&& 0xffffff) * 2 ^ (8 * (bits >>> 24 - 3)))) ∧
    (∃ bits t, bits < 2 ^ 32 ∧ bits_to_target bits = some t ∧ 2 ^ 256 < t) := by
  constructor
  · intro bits _ h3
    simp [bits_to_target, h3]
  · exact ⟨0x21ffffff, 0xffffff * 2 ^ 240, by decide, by decide, by decide⟩

/-- Witness for C6 at the repository's difficulty constant. -/
theorem bits_to_target_formula_witness :
    bits_to_target 0x1f7fffff =
      some ((0x1f7fffff &&& 0xffffff) * 2 ^ (8 * ((0x1f7fffff : Nat) >>> 24 - 3))) :=
  bits_to_target_formula.1 0x1f7fffff (by decide) (by decide)

/-- C10: `bits_to_target` totally returns an integer exactly when the top
byte of `bits` is at least 3; for a top byte of 0, 1 or 2 the negative
shift makes the computation fail instead of returning a value. -/
theorem bits_to_target_domain (bits : Nat) :
    (3 ≤ bits >>> 24 → ∃ t, bits_to_target bits = some t) ∧
    (bits >>> 24 < 3 → bits_to_target bits = none) := by
  constructor
  · intro h3
    exact ⟨(bits &&& 0xffffff) * 2 ^ (8 * (bits >>> 24 - 3)),
      by simp [bits_to_target, h3]⟩
  · intro hlt
    unfold bits_to_target
    rw [if_neg (by omega)]

/-- Witness for C10 at one value of each kind. -/
theorem bits_to_target_domain_witness :
    (∃ t, bits_to_target 0x1f7fffff = some t) ∧
    bits_to_target 0x01000000 = none :=
  ⟨(bits_to_target_domain 0x1f7fffff).1 (by decide),
   (bits_to_target_domain 0x01000000).2 (by decide)⟩

/-- C2: for every header whose hash strings are 64 hex characters and
whose numeric fields fit 32 bits, `serialize_block_header` returns exactly
the 80-byte concatenation: version (4 bytes little-endian), the 32 bytes
of the previous hash byte-reversed from hex display form, the 32 bytes of
the merkle root byte-reversed from hex, then timestamp, bits and nonce as
4 bytes little-endian each, in that fixed order. -/
theorem serialize_block_header_layout (version timestamp bits nonce : Nat)
    (prev mroot : List Char)
    (hv : version < 2 ^ 32) (ht : timestamp < 2 ^ 32) (hb : bits < 2 ^ 32)
    (hn : nonce < 2 ^ 32) (hp : IsHex64 prev) (hm : IsHex64 mroot) :
    ∃ pb mb, bytesFromHex prev = some pb ∧ pb.length = 32 ∧
      bytesFromHex mroot = some mb ∧ mb.length = 32 ∧
      serialize_block_header version prev mroot timestamp bits nonce =
        some (leBytes 4 version ++ pb.reverse ++ mb.reverse ++
          leBytes 4 timestamp ++ leBytes 4 bits ++ leBytes 4 nonce) ∧
      (leBytes 4 version ++ pb.reverse ++ mb.reverse ++ leBytes 4 timestamp ++
        leBytes 4 bits ++ leBytes 4 nonce).length = 80 := by
  obtain ⟨pb, hpb, hpblen⟩ := bytesFromHex_ok prev (by rw [hp.1]) hp.2
  obtain ⟨mb, hmb, hmblen⟩ := bytesFromHex_ok mroot (by rw [hm.1]) hm.2
  rw [hp.1] at hpblen
  rw [hm.1] at hmblen
  have h32 : (2 : Nat) ^ 32 = 256 ^ 4 := by norm_num
  refine ⟨pb, mb, hpb, hpblen, hmb, hmblen, ?_, ?_⟩
  · unfold serialize_block_header packLE
    rw [if_pos (h32 ▸ hv), if_pos (h32 ▸ ht), if_pos (h32 ▸ hb),
      if_pos (h32 ▸ hn), hpb, hmb]
  · simp [leBytes_length, hpblen, hmblen]

/-- Witness for C2 at the repository's constants and the all-zero hash
strings. -/
theorem serialize_block_header_layout_witness :
    ∃ pb mb, bytesFromHex PREVIOUS_BLOCK_HASH = some pb ∧ pb.length = 32 ∧
      bytesFromHex PREVIOUS_BLOCK_HASH = some mb ∧ mb.length = 32 ∧
      serialize_block_header VERSION PREVIOUS_BLOCK_HASH PREVIOUS_BLOCK_HASH
          1700000000 BITS 0 =
        some (leBytes 4 VERSION ++ pb.reverse ++ mb.reverse ++
          leBytes 4 1700000000 ++ leBytes 4 BITS ++ leBytes 4 0) ∧
      (leBytes 4 VERSION ++ pb.reverse ++ mb.reverse ++ leBytes 4 1700000000 ++
        leBytes 4 BITS ++ leBytes 4 0).length = 80 :=
  serialize_block_header_layout VERSION 1700000000 BITS 0
    PREVIOUS_BLOCK_HASH PREVIOUS_BLOCK_HASH (by decide) (by decide) (by decide)
    (by decide) (by decide) (by decide)

/-- A pairing pass produces one output per input pair (rounding up). -/
theorem pairCombine_length (d : Bytes → Bytes) :
    ∀ l : List Bytes, (pairCombine d l).length = (l.length + 1) / 2
  | [] => by simp [pairCombine]
  | [_] => by simp [pairCombine]
  | _ :: _ :: rest => by
    simp only [pairCombine, List.length_cons, pairCombine_length d rest]
    omega

/-- A level of at least two hashes strictly shrinks and stays nonempty. -/
theorem merkleLevel_length (d : Bytes → Bytes) (hs : List Bytes)
    (h2 : 2 ≤ hs.length) :
    (merkleLevel d hs).length < hs.length ∧ 1 ≤ (merkleLevel d hs).length := by
  simp only [merkleLevel, pairCombine_length]
  rcases Nat.mod_two_eq_zero_or_one hs.length with hp | hp <;>
    simp [hp] <;> omega

/-- With fuel at least the initial level length, the Merkle loop runs to a
single remaining element, justifying the fuel encoding of the unbounded
Python `while`. -/
theorem merkleLoopAux_length_le (d : Bytes → Bytes) :
    ∀ fuel hs, hs.length ≤ fuel → 1 ≤ hs.length →
      (merkleLoopAux d fuel hs).length = 1
  | 0, _, hle, hge => absurd hge (by omega)
  | fuel + 1, hs, hle, hge => by
    simp only [merkleLoopAux]
    by_cases h1 : 1 < hs.length
    · rw [if_pos h1]
      obtain ⟨hlt, hge1⟩ := merkleLevel_length d hs (by omega)
      exact merkleLoopAux_length_le d fuel _ (by omega) hge1
    · rw [if_neg h1]
      omega

/-- The source pairing pass coincides with the spec-side pairing pass. -/
theorem pairCombine_eq_specPairStep (d : Bytes → Bytes) :
    ∀ l, pairCombine d l = specPairStep d l
  | [] => rfl
  | [_] => rfl
  | _ :: _ :: rest => by
    simp only [pairCombine, specPairStep]
    rw [pairCombine_eq_specPairStep d rest]

/-- The source level step coincides with evenize-then-pair of the spec. -/
theorem merkleLevel_eq_spec (d : Bytes → Bytes) (hs : List Bytes) :
    merkleLevel d hs = specPairStep d (specEvenize hs) := by
  simp only [merkleLevel, specEvenize, pairCombine_eq_specPairStep]
  rcases Nat.mod_two_eq_zero_or_one hs.length with hp | hp <;> simp [hp]

/-- The head of the source Merkle loop equals the spec-side reduction at
every fuel. -/
theorem merkleLoopAux_headI_eq_spec (d : Bytes → Bytes) :
    ∀ fuel hs, (merkleLoopAux d fuel hs).headI = specReduceAux d fuel hs
  | 0, _ => rfl
  | fuel + 1, hs => by
    simp only [merkleLoopAux, specReduceAux]
    by_cases h1 : 1 < hs.length
    · rw [if_pos h1, if_pos h1, merkleLevel_eq_spec]
      exact merkleLoopAux_headI_eq_spec d fuel _
    · rw [if_neg h1, if_neg h1]

/-- C3: `merkle_root` returns 64 zero hex characters on the empty list,
and on any non-empty list whose hashes hex-decode it returns exactly the
spec-side reduction (duplicate the last element of an odd level, replace
each adjacent pair by `double_sha256(left ++ right)`, repeat until one
element remains) of the decoded bytes, byte-reversed and hex-encoded. -/
theorem merkle_root_follows_spec (sha : Bytes → Bytes) :
    merkle_root sha [] = some (List.replicate 64 '0') ∧
    ∀ l hs, l ≠ [] → l.mapM bytesFromHex = some hs →
      merkle_root sha l =
        some (bytesToHex (merkleReduceSpec (double_sha256 sha) hs).reverse) := by
  refine ⟨rfl, fun l hs hne hdec => ?_⟩
  unfold merkle_root
  rw [if_neg (by simpa using hne), hdec]
  simp only [merkleReduceSpec]
  rw [merkleLoopAux_headI_eq_spec]

/-- Witness for C3 on a concrete two-hash list. -/
theorem merkle_root_follows_spec_witness :
    merkle_root shaPass [PREVIOUS_BLOCK_HASH, PREVIOUS_BLOCK_HASH] =
      some (bytesToHex (merkleReduceSpec (double_sha256 shaPass)
        [List.replicate 32 0, List.replicate 32 0]).reverse) :=
  (merkle_root_follows_spec shaPass).2
    [PREVIOUS_BLOCK_HASH, PREVIOUS_BLOCK_HASH]
    [List.replicate 32 0, List.replicate 32 0] (by decide) (by decide)

/-- The source keeping pass and the spec-side keeping pass coincide. -/
theorem specKeep_eq_fixKeep (n : Nat) :
    ∀ arr acc, specKeep n arr acc = fixKeep n arr acc
  | [], _ => rfl
  | x :: xs, acc => by
    simp only [specKeep, fixKeep]
    by_cases hc : x ∉ acc ∧ 0 ≤ x ∧ x < (n : Int)
    · rw [if_pos hc, if_pos hc, specKeep_eq_fixKeep n xs]
    · rw [if_neg hc, if_neg hc, specKeep_eq_fixKeep n xs]

/-- The keeping pass preserves distinctness and in-range membership. -/
theorem specKeep_invariant (n : Nat) :
    ∀ arr acc, acc.Nodup → (∀ x ∈ acc, 0 ≤ x ∧ x < (n : Int)) →
      (specKeep n arr acc).Nodup ∧
      ∀ x ∈ specKeep n arr acc, 0 ≤ x ∧ x < (n : Int)
  | [], _, hnd, hmem => ⟨hnd, hmem⟩
  | x :: xs, acc, hnd, hmem => by
    simp only [specKeep]
    by_cases hc : x ∉ acc ∧ 0 ≤ x ∧ x < (n : Int)
    · rw [if_pos hc]
      refine specKeep_invariant n xs (acc ++ [x]) ?_ ?_
      · simp [List.nodup_append, hnd, hc.1]
      · intro y hy
        rcases List.mem_append.mp hy with hy | hy
        · exact hmem y hy
        · simp only [List.mem_singleton] at hy
          subst hy
          exact hc.2
    · rw [if_neg hc]
      exact specKeep_invariant n xs acc hnd hmem

/-- Counting: a distinct in-range list together with the ascending missing
indices of `range n` has total length exactly `n`. -/
theorem kept_complement_length (n : Nat) (kept : List Int) (hnd : kept.Nodup)
    (hmem : ∀ x ∈ kept, 0 ≤ x ∧ x < (n : Int)) :
    kept.length +
      ((List.range n).filter (fun k : Nat => decide ((k : Int) ∉ kept))).length = n := by
  classical
  have hnd2 : ((List.range n).filter
      (fun k : Nat => decide ((k : Int) ∉ kept))).Nodup :=
    (List.nodup_range n).filter _
  have h1 : ((List.range n).filter (fun k : Nat => decide ((k : Int) ∉ kept))).length
      = ((Finset.range n).filter (fun k : Nat => (k : Int) ∉ kept)).card := by
    rw [← List.toFinset_card_of_nodup hnd2]
    congr 1
    ext k
    simp
  have himg : (Finset.range n).filter (fun k : Nat => (k : Int) ∈ kept)
      = kept.toFinset.image Int.toNat := by
    ext k
    simp only [Finset.mem_filter, Finset.mem_range, Finset.mem_image,
      List.mem_toFinset]
    constructor
    · rintro ⟨hk, hmemk⟩
      exact ⟨(k : Int), hmemk, Int.toNat_natCast k⟩
    · rintro ⟨x, hx, rfl⟩
      obtain ⟨hx0, hxn⟩ := hmem x hx
      refine ⟨by omega, ?_⟩
      rwa [Int.toNat_of_nonneg hx0]
  have hinj : Set.InjOn Int.toNat kept.toFinset := by
    intro x hx y hy hxy
    have hx0 := (hmem x (List.mem_toFinset.mp hx)).1
    have hy0 := (hmem y (List.mem_toFinset.mp hy)).1
    omega
  have h2 : kept.length
      = ((Finset.range n).filter (fun k : Nat => (k : Int) ∈ kept)).card := by
    rw [himg, Finset.card_image_of_injOn hinj,
      List.toFinset_card_of_nodup hnd]
  rw [h1, h2]
  have hsplit := Finset.filter_card_add_filter_neg_card_eq_card
    (s := Finset.range n) (p := fun k => (k : Int) ∈ kept)
  simpa using hsplit

/-- The drop-and-append normalization always has length exactly `n`. -/
theorem dropAppendNorm_length (arr : List Int) (n : Nat) :
    (dropAppendNorm arr n).length = n := by
  obtain ⟨hnd, hmem⟩ := specKeep_invariant n arr [] (by simp) (by simp)
  simpa [dropAppendNorm] using kept_complement_length n _ hnd hmem

/-- The source permutation repair equals the spec-side drop-and-append
normalization on every input list of integers. -/
theorem fix_permutation_eq_dropAppendNorm (arr : List Int) (n : Nat) :
    fix_permutation arr n = dropAppendNorm arr n := by
  have hlen := dropAppendNorm_length arr n
  simp only [dropAppendNorm, ← specKeep_eq_fixKeep] at hlen ⊢
  simp only [fix_permutation, ← specKeep_eq_fixKeep]
  exact List.take_of_length_le (le_of_eq hlen)

/-- C4 counterexample: with 3 pooled transactions and input ordering
`[5]`, the ordering actually used by `step` is `[2, 0, 1]` (the
out-of-range 5 is clamped to 2 before the repair), while the
drop-and-append normalization of the raw input is `[0, 1, 2]`. -/
theorem step_order_not_dropAppend_cex :
    step shaPass [] s3 a5 = some R3 ∧
    R3.state.current_tx_order = [2, 0, 1] ∧
    dropAppendNorm a5.tx_order s3.num_txs = [0, 1, 2] ∧
    R3.state.current_tx_order ≠ dropAppendNorm a5.tx_order s3.num_txs :=
  ⟨step_s3_pass, by decide, by decide, by decide⟩

/-- C4 amended: the repair itself (`fix_permutation`) never raises and
equals the drop-and-append normalization on every input list of integers,
but the ordering used by `step` applies it only after clamping each entry
into `[0, num_txs - 1]`, so the used ordering is the normalization of the
clamped input, not of the raw input. -/
theorem step_order_is_clamped_dropAppend :
    (∀ arr n, fix_permutation arr n = dropAppendNorm arr n) ∧
    (∀ sha newTxs s a r, step sha newTxs s a = some r →
      r.state.current_tx_order =
        dropAppendNorm (a.tx_order.map (clampIdx s.num_txs)) s.num_txs) := by
  refine ⟨fix_permutation_eq_dropAppendNorm, fun sha newTxs s a r h => ?_⟩
  rw [(step_some_spec sha newTxs s a r h).2.2.2.2.2.1]
  exact fix_permutation_eq_dropAppendNorm _ _

/-- Witness for C4 at the closed three-transaction fixture. -/
theorem step_order_is_clamped_dropAppend_witness :
    R3.state.current_tx_order =
      dropAppendNorm (a5.tx_order.map (clampIdx s3.num_txs)) s3.num_txs :=
  step_order_is_clamped_dropAppend.2 shaPass [] s3 a5 R3 step_s3_pass

end AiMiner
